import Mathlib

/-!
Shallow embedding of the jsonparse library (src/lib.rs): a JSON tokenizer and
recursive-descent parser over `Peekable` iterators, plus soft (`get_arr`,
`get_map`) and hard (`Index`) accessors and the `Display` rendering.

Modelling conventions:
  - Characters are Lean `Char` (Rust iterates over `char` code points).
  - `HashMap<String, Value>` is modelled as an association list kept in
    insertion order; `insertKV` replaces the value of an existing key in
    place and appends a fresh key, matching `HashMap::insert`'s
    last-write-wins semantics (iteration order of the real `HashMap` is
    unspecified; the list order is one admissible order).
  - Machine integers: `i32` values are Lean `Int`; `str::parse::<i32>` on the
    scanner's digit-and-dot runs succeeds exactly on nonempty all-digit runs
    whose value is at most 2147483647 (runs never carry a sign).
  - `f32` values are modelled as exact rationals (`Rat`); rounding to binary
    f32 is not modelled, and no theorem below depends on a Float payload.
    `str::parse::<f32>` on a digit-and-dot run succeeds exactly when the run
    contains a digit and at most one dot.
  - Fallible code returns `Option`; a panic is the `HardResult.panics` value.
  - The tokenizer (`next_token`) returns `none` both at end of input and on a
    lexical error, exactly as the Rust code collapses both to `None`.
    `tokenize` runs it to the first `none`.  The Rust parser is driven by a
    lazy `Peekable<Tokenizer>`; it never requests a token after consuming a
    `none` (checked against every call site), so parsing over the eagerly
    truncated token list is observationally identical.
  - Recursion that is not structural is driven by an explicit fuel parameter
    so that every definition evaluates by kernel reduction.  Canonical fuels
    (`tokenize`: length + 1, `parse`: 2·tokens + 2) are strict
    over-approximations of the recursion actually performed, so the fueled
    functions agree with the Rust code on every input.  The rendering
    `renderAtD` takes its depth fuel as an argument; any fuel exceeding the
    value's nesting depth yields the `Display` output, and the round-trip
    theorems certify their fuel through `goodRootD`.
-/

/-- The `Value` enum of src/lib.rs. -/
inductive Value where
  | Int (i : Int)
  | Float (q : Rat)
  | JsonString (s : String)
  | Array (v : List Value)
  | Object (m : List (String × Value))
  | Bool (b : Bool)
  | Null

/-- Rust's `HashMap::get` on the association-list model. -/
def lookupKV : List (String × Value) → String → Option Value
  | [], _ => none
  | (k, v) :: ps, key => if k = key then some v else lookupKV ps key

/-- Rust's `HashMap::insert`: replace the value of an existing key, append a fresh one. -/
def insertKV : List (String × Value) → String → Value → List (String × Value)
  | [], key, val => [(key, val)]
  | (k, v) :: ps, key, val =>
    if k = key then (k, val) :: ps else (k, v) :: insertKV ps key val

/-- Rust's `Value::get_arr` (soft lookup, `Vec::get`). -/
def Value.get_arr : Value → Nat → Option Value
  | .Array v, i => v.get? i
  | _, _ => none

/-- Rust's `Value::get_map` (soft lookup, `HashMap::get`). -/
def Value.get_map : Value → String → Option Value
  | .Object m, key => lookupKV m key
  | _, _ => none

/-- Outcome of a hard accessor: a reference, or a panic that aborts the caller. -/
inductive HardResult where
  | ok (v : Value)
  | panics

/-- Rust's `impl Index<&str> for Value`: `&map[index]` panics on a missing key, and any
non-`Object` receiver hits the `panic!` arm. -/
def indexStr (v : Value) (key : String) : HardResult :=
  match v with
  | .Object m =>
    match lookupKV m key with
    | some x => .ok x
    | none => .panics
  | _ => .panics

/-- Rust's `impl Index<usize> for Value`: `&v[index]` panics out of bounds, and any
non-`Array` receiver hits the `panic!` arm. -/
def indexNum (v : Value) (i : Nat) : HardResult :=
  match v with
  | .Array l =>
    match l.get? i with
    | some x => .ok x
    | none => .panics
  | _ => .panics

/-- Rust's `impl OptionValueExt for Option<&Value>`: `get_arr`. -/
def OptionValueExt.get_arr : Option Value → Nat → Option Value
  | some v, i => v.get_arr i
  | none, _ => none

/-- Rust's `impl OptionValueExt for Option<&Value>`: `get_map`. -/
def OptionValueExt.get_map : Option Value → String → Option Value
  | some v, key => v.get_map key
  | none, _ => none

/-- The `Token` enum of src/lib.rs. -/
inductive Token where
  | value (v : Value)
  | CurlyBracketOpen
  | CurlyBracketClose
  | BracketOpen
  | BracketClose
  | Comma
  | Colon

/-! ## Tokenizer -/

/-- Rust `char::is_whitespace` (the Unicode White_Space property). -/
def rustIsWhitespace (c : Char) : Bool :=
  c.toNat = 0x09 || c.toNat = 0x0a || c.toNat = 0x0b || c.toNat = 0x0c ||
  c.toNat = 0x0d || c.toNat = 0x20 || c.toNat = 0x85 || c.toNat = 0xa0 ||
  c.toNat = 0x1680 || (0x2000 ≤ c.toNat && c.toNat ≤ 0x200a) ||
  c.toNat = 0x2028 || c.toNat = 0x2029 || c.toNat = 0x202f ||
  c.toNat = 0x205f || c.toNat = 0x3000

/-- Rust's `('0'..='9').contains(c)`. -/
def isAsciiDigit (c : Char) : Bool :=
  48 ≤ c.toNat && c.toNat ≤ 57

/-- The character class of `next_number`'s scan loop: a digit or `.`. -/
def isNumChar (c : Char) : Bool :=
  isAsciiDigit c || c = '.'

def digitVal (c : Char) : Nat := c.toNat - 48

/-- Digit run to number, most significant first. -/
def digitsToNat (s : List Char) : Nat :=
  s.foldl (fun acc c => 10 * acc + digitVal c) 0

/-- Rust's `str::parse::<i32>` on a scanned run (which never contains a sign): all
characters must be digits, there must be at least one, and the value must fit. -/
def parse_i32 (s : List Char) : Option Int :=
  match s with
  | [] => none
  | _ =>
    if s.all isAsciiDigit then
      if digitsToNat s ≤ 2147483647 then some (digitsToNat s) else none
    else none

/-- Rust's `str::parse::<f32>` on a scanned digit-and-dot run: succeeds exactly when
the run has at least one digit and at most one dot (overflow rounds to
infinity in Rust, never an error).  The payload is the exact decimal value as
a rational; rounding to the nearest f32 is not modelled. -/
def parse_f32 (s : List Char) : Option Rat :=
  if s.all isNumChar && s.any isAsciiDigit && s.count '.' ≤ 1 then
    some ((digitsToNat (s.takeWhile (fun c => c ≠ '.')) : Int) +
      mkRat (digitsToNat ((s.dropWhile (fun c => c ≠ '.')).drop 1))
        (10 ^ ((s.dropWhile (fun c => c ≠ '.')).drop 1).length))
  else none

/-- The scan loop of `Tokenizer::next_number`: the collected run and the rest. -/
def numRun : List Char → List Char × List Char
  | [] => ([], [])
  | c :: cs =>
    if isNumChar c then
      let r := numRun cs
      (c :: r.1, r.2)
    else ([], c :: cs)

/-- Rust's `Tokenizer::next_number` (called with the first digit still unconsumed). -/
def next_number (cs : List Char) : Option (Token × List Char) :=
  let r := numRun cs
  match parse_i32 r.1 with
  | some i => some (.value (.Int i), r.2)
  | none =>
    match parse_f32 r.1 with
    | some q => some (.value (.Float q), r.2)
    | none => none

/-- The scan loop of `Tokenizer::next_string`, after the opening quote: the
Bool is the `is_escaped` flag.  Returns the collected characters and the rest
of the input.  End of input terminates the string (no failure). -/
def scan_string : List Char → Bool → List Char × List Char
  | [], _ => ([], [])
  | c :: cs, true =>
    let r := scan_string cs false
    (c :: r.1, r.2)
  | c :: cs, false =>
    if c = '\\' then scan_string cs true
    else if c = '\"' then ([], cs)
    else
      let r := scan_string cs false
      (c :: r.1, r.2)

/-- Rust's `Tokenizer::next_string` (called after the opening quote was consumed):
always produces a token. -/
def next_string (cs : List Char) : Option (Token × List Char) :=
  let r := scan_string cs false
  some (.value (.JsonString (String.mk r.1)), r.2)

/-- The `for_each` loop shared by `next_true` / `next_false` / `next_null`: it
consumes one input character per literal character (stopping only at end of
input) and records whether every one matched. -/
def matchChars : List Char → List Char → Bool × List Char
  | [], cs => (true, cs)
  | _ :: _, [] => (false, [])
  | l :: ls, c :: cs =>
    let r := matchChars ls cs
    (decide (l = c) && r.1, r.2)

/-- Rust's `Tokenizer::next_true` (the peeked `t` is still unconsumed). -/
def next_true (cs : List Char) : Option (Token × List Char) :=
  let r := matchChars "true".data cs
  if r.1 then some (.value (.Bool true), r.2) else none

/-- Rust's `Tokenizer::next_false`. -/
def next_false (cs : List Char) : Option (Token × List Char) :=
  let r := matchChars "false".data cs
  if r.1 then some (.value (.Bool false), r.2) else none

/-- Rust's `Tokenizer::next_null`. -/
def next_null (cs : List Char) : Option (Token × List Char) :=
  let r := matchChars "null".data cs
  if r.1 then some (.value .Null, r.2) else none

/-- Rust's `Tokenizer::next_token`: dispatch on the peeked character.  `none` models
"no token" (end of input, or the unparseable-character arm, which consumes
nothing). -/
def next_token : List Char → Option (Token × List Char)
  | [] => none
  | c :: cs =>
    if c = '\x7b' then some (.CurlyBracketOpen, cs)
    else if c = '\x7d' then some (.CurlyBracketClose, cs)
    else if c = '[' then some (.BracketOpen, cs)
    else if c = ']' then some (.BracketClose, cs)
    else if c = ',' then some (.Comma, cs)
    else if c = ':' then some (.Colon, cs)
    else if c = '\"' then next_string cs
    else if rustIsWhitespace c then next_token cs
    else if c = 't' then next_true (c :: cs)
    else if c = 'f' then next_false (c :: cs)
    else if c = 'n' then next_null (c :: cs)
    else if isAsciiDigit c then next_number (c :: cs)
    else none

/-- Driving the tokenizer to its first `none`, fueled (each produced token
consumes at least one character, so `length + 1` fuel is never exhausted). -/
def tokenizeF : Nat → List Char → List Token
  | 0, _ => []
  | f + 1, cs =>
    match next_token cs with
    | some (t, r) => t :: tokenizeF f r
    | none => []

/-- The token sequence the parser sees for a given input. -/
def tokenize (cs : List Char) : List Token :=
  tokenizeF (cs.length + 1) cs

/-! ## Parser

Each function takes the remaining token list and returns the Rust function's
result together with the tokens left unconsumed (the Rust parser keeps using
the stream after a failed sub-parse, so the rest matters even on `none`).
The fuel decreases on every call; `parse` supplies `2·tokens + 2`, which is
never exhausted (every nested call chain consumes a token every two calls,
and each loop iteration consumes at least one token per fuel step). -/

/-- The final "Consume `}`" check of `Parser::parse_object`. -/
def object_close : List Token → List (String × Value) → Option Value × List Token
  | .CurlyBracketClose :: rest, map => (some (.Object map), rest)
  | _ :: rest, _ => (none, rest)
  | [], _ => (none, [])

mutual

/-- Rust's `Parser::parse_value`: peek one token and dispatch. -/
def parse_value : Nat → List Token → Option Value × List Token
  | 0, tl => (none, tl)
  | f + 1, tl =>
    match tl with
    | [] => (none, [])
    | .CurlyBracketOpen :: _ => parse_object f tl
    | .BracketOpen :: _ => parse_array f tl
    | .value v :: rest => (some v, rest)
    | _ => (none, tl)

/-- Rust's `Parser::parse_object`: consume the `{` (unchecked `next()`), run the
member loop, then require a closing `}`. -/
def parse_object : Nat → List Token → Option Value × List Token
  | 0, tl => (none, tl)
  | f + 1, tl => object_loop f tl.tail []

/-- The `while let Some(Token::Value(JsonString(_))) = peek()` loop of
`parse_object`, including the trailing `}` check on every exit path. -/
def object_loop : Nat → List Token → List (String × Value) → Option Value × List Token
  | 0, tl, _ => (none, tl)
  | f + 1, tl, map =>
    match tl with
    | .value (.JsonString s) :: .Colon :: tl2 =>
      match parse_value f tl2 with
      | (some val, tl3) =>
        match tl3 with
        | .Comma :: tl4 => object_loop f tl4 (insertKV map s val)
        | _ => object_close tl3 (insertKV map s val)
      | (none, tl3) => object_close tl3 map
    | .value (.JsonString _) :: _ :: tl2 => (none, tl2)
    | [.value (.JsonString _)] => (none, [])
    | _ => object_close tl map

/-- Rust's `Parser::parse_array`: consume the `[`, shortcut the empty array, then run
the element loop. -/
def parse_array : Nat → List Token → Option Value × List Token
  | 0, tl => (none, tl)
  | f + 1, tl =>
    match tl.tail with
    | .BracketClose :: rest => (some (.Array []), rest)
    | tl1 => array_loop f tl1 []

/-- The `while let Some(val) = self.parse_value()` loop of `parse_array`: on a
failed element parse the loop simply ends and the array built so far is
returned (the failing token stays unconsumed). -/
def array_loop : Nat → List Token → List Value → Option Value × List Token
  | 0, tl, _ => (none, tl)
  | f + 1, tl, vec =>
    match parse_value f tl with
    | (some val, tl2) =>
      match tl2 with
      | .Comma :: tl3 => array_loop f tl3 (vec ++ [val])
      | .BracketClose :: tl3 => (some (.Array (vec ++ [val])), tl3)
      | _ :: tl3 => (none, tl3)
      | [] => (none, [])
    | (none, tl2) => (some (.Array vec), tl2)

end

/-- Canonical parser fuel for a token list. -/
def parseFuel (tl : List Token) : Nat := 2 * tl.length + 2

/-- Rust's `Parser::parse`: tokenize, run `parse_value` once, drop the unconsumed
rest (there is no end-of-input check after the root value). -/
def parse (s : String) : Option Value :=
  (parse_value (parseFuel (tokenize s.data)) (tokenize s.data)).1

/-! ## Textual rendering (`impl Display for Value`)

`Display` prints scalars with their `Display` form, strings wrapped in bare
quotes with no re-escaping, and containers with `write!(f, "\x7b:#?\x7d", ..)`,
i.e. the standard library's pretty (alternate) `Debug` for `Vec` / `HashMap`:
one entry per line, each entry indented four more spaces than the enclosing
delimiter, a comma after every entry, the closing delimiter on its own line at
the enclosing indentation, and `[]` / `\x7b\x7d` for empty containers.  Object keys
are printed with `String`'s `Debug` (quoted, with `\"`-style escaping); the
`\u`-escaping that `escape_debug` applies to other control characters is
not modelled, and the round-trip theorems restrict keys to printable ASCII.
`f32`'s `Display` (shortest decimal representation) is not modelled: `Float`
renders as a placeholder and every rendering theorem excludes it. -/

/-- Decimal digits of a natural number, most significant first, fueled
(`n / 10 < n` keeps fuel `n + 1` from exhausting). -/
def natDigitsGo : Nat → Nat → List Char
  | 0, _ => []
  | f + 1, n =>
    if n < 10 then [Char.ofNat (48 + n)]
    else natDigitsGo f (n / 10) ++ [Char.ofNat (48 + n % 10)]

def natDigits (n : Nat) : List Char := natDigitsGo (n + 1) n

/-- Rust's `i32`'s `Display`. -/
def intDisplay (i : Int) : List Char :=
  if i < 0 then '-' :: natDigits i.natAbs else natDigits i.toNat

/-- Rust's `char::escape_debug`, as used by `String`'s `Debug` for object keys
(`\u`-escapes for other control characters are not modelled — the round-trip
theorems restrict keys to printable ASCII, where this is exact). -/
def charEscapeDebug (c : Char) : List Char :=
  if c = '\"' then ['\\', '\"']
  else if c = '\\' then ['\\', '\\']
  else if c = '\n' then ['\\', 'n']
  else if c = '\r' then ['\\', 'r']
  else if c = '\t' then ['\\', 't']
  else if c.toNat = 0 then ['\\', '0']
  else [c]

/-- Rust's `String`'s `Debug` (used for `HashMap` keys under `\x7b:#?\x7d`). -/
def stringDebug (s : String) : List Char :=
  '\"' :: (s.data.map charEscapeDebug).flatten ++ ['\"']

/-- The `Display` rendering at indentation `ind`, fueled on structure depth
(the indentation parameter plays the role of the `Formatter`'s `PadAdapter`).
Any fuel exceeding the value's nesting depth yields the `Display` output; in
particular `goodD d v = true` (below) certifies that fuel `d` is enough,
since `goodD` recurses down the same structure and rejects fuel 0. -/
def renderAtD : Nat → Nat → Value → List Char
  | 0, _, _ => []
  | d + 1, ind, v =>
    match v with
    | .Null => "null".data
    | .Int i => intDisplay i
    | .Float _ => "0".data
    | .JsonString s => '\"' :: s.data ++ ['\"']
    | .Bool true => "true".data
    | .Bool false => "false".data
    | .Array [] => "[]".data
    | .Array vs =>
      '[' :: (vs.map (fun e =>
          '\n' :: List.replicate (ind + 4) ' ' ++ renderAtD d (ind + 4) e ++ [','])).flatten
        ++ '\n' :: List.replicate ind ' ' ++ [']']
    | .Object [] => "\x7b\x7d".data
    | .Object ps =>
      '\x7b' :: (ps.map (fun p =>
          '\n' :: List.replicate (ind + 4) ' ' ++ stringDebug p.1 ++ ':' :: ' ' ::
            renderAtD d (ind + 4) p.2 ++ [','])).flatten
        ++ '\n' :: List.replicate ind ' ' ++ ['\x7d']

/-! ## The value class for which rendering round-trips -/

/-- A string-value character that the unescaped `Display` form re-tokenizes
literally: anything but `"` (34) and `\` (92). -/
def safeStrChar (c : Char) : Bool :=
  c.toNat ≠ 34 && c.toNat ≠ 92

/-- A key character on which the modelled `escape_debug` is the identity:
printable ASCII other than `"` and `\`. -/
def safeKeyChar (c : Char) : Bool :=
  32 ≤ c.toNat && c.toNat ≤ 126 && c.toNat ≠ 34 && c.toNat ≠ 92

/-- Values whose rendering re-tokenizes and re-parses to the same value when
they occur anywhere inside the tree (see the round-trip theorems): in-range
nonnegative `Int`s, no `Float`, safe strings, objects with distinct printable
keys, and only empty arrays (a nonempty array's pretty form carries a trailing
comma, which makes the reparse drop out of `parse_array`'s loop early and
strand its `]`, so nonempty arrays only survive at the root). -/
def goodD : Nat → Value → Bool
  | 0, _ => false
  | d + 1, v =>
    match v with
    | .Int i => decide (0 ≤ i ∧ i < 2147483648)
    | .Float _ => false
    | .JsonString s => s.data.all safeStrChar
    | .Bool _ => true
    | .Null => true
    | .Array vs => vs.isEmpty
    | .Object ps =>
      decide (ps.map Prod.fst).Nodup &&
        ps.all (fun p => p.1.data.all safeKeyChar && goodD d p.2)

/-- The root may additionally be a nonempty array of good values. -/
def goodRootD (d : Nat) (v : Value) : Bool :=
  goodD d v ||
    match d, v with
    | e + 1, .Array vs => !vs.isEmpty && vs.all (goodD e)
    | _, _ => false

/-- The token sequence of a rendered value (its text minus whitespace),
fueled like `renderAtD`. -/
def renderToksD : Nat → Value → List Token
  | 0, _ => []
  | d + 1, v =>
    match v with
    | .Array [] => [.BracketOpen, .BracketClose]
    | .Array vs =>
      .BracketOpen :: (vs.map (fun e => renderToksD d e ++ [.Comma])).flatten
        ++ [.BracketClose]
    | .Object [] => [.CurlyBracketOpen, .CurlyBracketClose]
    | .Object ps =>
      .CurlyBracketOpen :: (ps.map (fun p =>
        .value (.JsonString p.1) :: .Colon :: renderToksD d p.2 ++ [.Comma])).flatten
        ++ [.CurlyBracketClose]
    | x => [.value x]

/-- The member tokens of a rendered object, one `key : value ,` group per
member. -/
def mtoksD : Nat → List (String × Value) → List Token
  | _, [] => []
  | d, (k, v) :: ps =>
    .value (.JsonString k) :: .Colon :: (renderToksD d v ++ .Comma :: mtoksD d ps)

/-- The element tokens of a rendered array, one `value ,` group per element. -/
def etoksD : Nat → List Value → List Token
  | _, [] => []
  | d, v :: vs => renderToksD d v ++ .Comma :: etoksD d vs

/-- Folding the parser's member inserts over a pair list. -/
def insertAll (m : List (String × Value)) (ps : List (String × Value)) :
    List (String × Value) :=
  ps.foldl (fun acc p => insertKV acc p.1 p.2) m

/-- A rest-of-input that cannot extend a preceding token's scan: empty, or
starting with a character outside the digit scanner's class (the digit
scanner is the only one that looks past its own text). -/
def safeFollow : List Char → Bool
  | [] => true
  | c :: _ => !(isNumChar c)

/-! ## Helper lemmas -/

theorem ne_of_toNat_ne {c d : Char} (h : c.toNat ≠ d.toNat) : c ≠ d :=
  fun e => h (congrArg Char.toNat e)

theorem numRun_append (cs : List Char) : (numRun cs).1 ++ (numRun cs).2 = cs := by
  induction cs with
  | nil => rfl
  | cons c cs ih =>
    by_cases h : isNumChar c = true
    · simp only [numRun, if_pos h, List.cons_append, ih]
    · simp only [numRun, if_neg h, List.nil_append]

theorem numRun_mem (cs : List Char) : ∀ c ∈ (numRun cs).1, isNumChar c = true := by
  induction cs with
  | nil => intro c h; cases h
  | cons c cs ih =>
    by_cases h : isNumChar c = true
    · simp only [numRun, if_pos h]
      intro x hx
      rcases List.mem_cons.mp hx with rfl | hx
      · exact h
      · exact ih x hx
    · simp only [numRun, if_neg h]
      intro x hx
      cases hx

theorem numRun_stop (cs : List Char) :
    ∀ c cs2, (numRun cs).2 = c :: cs2 → isNumChar c = false := by
  induction cs with
  | nil => intro c cs2 h; cases h
  | cons c cs ih =>
    by_cases h : isNumChar c = true
    · simp only [numRun, if_pos h]
      exact ih
    · simp only [numRun, if_neg h]
      intro x cs2 hx
      cases hx
      exact Bool.not_eq_true _ ▸ Bool.of_not_eq_true h

theorem scan_string_all_safe (cs rest : List Char)
    (h : ∀ c ∈ cs, safeStrChar c = true) :
    scan_string (cs ++ '\"' :: rest) false = (cs, rest) := by
  induction cs with
  | nil => rfl
  | cons c cs ih =>
    have hc : safeStrChar c = true := h c (List.mem_cons_self c cs)
    have h1 : ¬ (c = '\\') := by
      intro e
      subst e
      simp [safeStrChar] at hc
    have h2 : ¬ (c = '\"') := by
      intro e
      subst e
      simp [safeStrChar] at hc
    simp only [List.cons_append, scan_string, if_neg h1, if_neg h2, List.append_eq]
    rw [ih (fun x hx => h x (List.mem_cons_of_mem c hx))]

theorem scan_string_eof (cs : List Char) (h : ∀ c ∈ cs, safeStrChar c = true) :
    scan_string cs false = (cs, []) := by
  induction cs with
  | nil => rfl
  | cons c cs ih =>
    have hc : safeStrChar c = true := h c (List.mem_cons_self c cs)
    have h1 : ¬ (c = '\\') := by
      intro e
      subst e
      simp [safeStrChar] at hc
    have h2 : ¬ (c = '\"') := by
      intro e
      subst e
      simp [safeStrChar] at hc
    simp only [scan_string, if_neg h1, if_neg h2]
    rw [ih (fun x hx => h x (List.mem_cons_of_mem c hx))]

theorem scan_string_rest_le (cs : List Char) : ∀ e, (scan_string cs e).2.length ≤ cs.length := by
  induction cs with
  | nil => intro e; cases e <;> simp [scan_string]
  | cons c cs ih =>
    intro e
    cases e with
    | true =>
      simp only [scan_string]
      exact le_trans (ih false) (Nat.le_succ _)
    | false =>
      by_cases h1 : c = '\\'
      · simp only [scan_string, if_pos h1]
        exact le_trans (ih true) (Nat.le_succ _)
      · by_cases h2 : c = '\"'
        · simp only [scan_string, if_neg h1, if_pos h2, List.length_cons]
          omega
        · simp only [scan_string, if_neg h1, if_neg h2]
          exact le_trans (ih false) (Nat.le_succ _)

theorem matchChars_rest_le (ls : List Char) : ∀ cs, (matchChars ls cs).2.length ≤ cs.length := by
  induction ls with
  | nil => intro cs; simp [matchChars]
  | cons l ls ih =>
    intro cs
    cases cs with
    | nil => simp [matchChars]
    | cons c cs =>
      simp only [matchChars]
      exact le_trans (ih cs) (Nat.le_succ _)

theorem numRun_rest_le (cs : List Char) : (numRun cs).2.length ≤ cs.length := by
  induction cs with
  | nil => simp [numRun]
  | cons c cs ih =>
    by_cases h : isNumChar c = true
    · simp only [numRun, if_pos h]
      exact le_trans ih (Nat.le_succ _)
    · simp only [numRun, if_neg h, List.length_cons, le_refl]

theorem next_token_shrink :
    ∀ (cs : List Char) (t : Token) (r : List Char),
      next_token cs = some (t, r) → r.length < cs.length := by
  intro cs
  induction cs with
  | nil => intro t r h; cases h
  | cons c cs ih =>
    intro t r h
    simp only [next_token] at h
    by_cases h1 : c = '\x7b'
    · rw [if_pos h1] at h
      cases h
      simp
    · rw [if_neg h1] at h
      by_cases h2 : c = '\x7d'
      · rw [if_pos h2] at h
        cases h
        simp
      · rw [if_neg h2] at h
        by_cases h3 : c = '['
        · rw [if_pos h3] at h
          cases h
          simp
        · rw [if_neg h3] at h
          by_cases h4 : c = ']'
          · rw [if_pos h4] at h
            cases h
            simp
          · rw [if_neg h4] at h
            by_cases h5 : c = ','
            · rw [if_pos h5] at h
              cases h
              simp
            · rw [if_neg h5] at h
              by_cases h6 : c = ':'
              · rw [if_pos h6] at h
                cases h
                simp
              · rw [if_neg h6] at h
                by_cases h7 : c = '\"'
                · rw [if_pos h7] at h
                  simp only [next_string] at h
                  cases h
                  have := scan_string_rest_le cs false
                  simp only [List.length_cons]
                  omega
                · rw [if_neg h7] at h
                  by_cases h8 : rustIsWhitespace c = true
                  · rw [if_pos h8] at h
                    have := ih t r h
                    simp only [List.length_cons]
                    omega
                  · rw [if_neg h8] at h
                    by_cases h9 : c = 't'
                    · rw [if_pos h9] at h
                      subst h9
                      simp only [next_true] at h
                      by_cases hb : (matchChars "true".data ('t' :: cs)).1 = true
                      · rw [if_pos hb] at h
                        cases h
                        have heq : (matchChars "true".data ('t' :: cs)).2 =
                            (matchChars ('r' :: 'u' :: 'e' :: []) cs).2 := rfl
                        rw [heq]
                        have := matchChars_rest_le ('r' :: 'u' :: 'e' :: []) cs
                        simp only [List.length_cons]
                        omega
                      · rw [if_neg hb] at h
                        cases h
                    · rw [if_neg h9] at h
                      by_cases h10 : c = 'f'
                      · rw [if_pos h10] at h
                        subst h10
                        simp only [next_false] at h
                        by_cases hb : (matchChars "false".data ('f' :: cs)).1 = true
                        · rw [if_pos hb] at h
                          cases h
                          have heq : (matchChars "false".data ('f' :: cs)).2 =
                              (matchChars ('a' :: 'l' :: 's' :: 'e' :: []) cs).2 := rfl
                          rw [heq]
                          have := matchChars_rest_le ('a' :: 'l' :: 's' :: 'e' :: []) cs
                          simp only [List.length_cons]
                          omega
                        · rw [if_neg hb] at h
                          cases h
                      · rw [if_neg h10] at h
                        by_cases h11 : c = 'n'
                        · rw [if_pos h11] at h
                          subst h11
                          simp only [next_null] at h
                          by_cases hb : (matchChars "null".data ('n' :: cs)).1 = true
                          · rw [if_pos hb] at h
                            cases h
                            have heq : (matchChars "null".data ('n' :: cs)).2 =
                                (matchChars ('u' :: 'l' :: 'l' :: []) cs).2 := rfl
                            rw [heq]
                            have := matchChars_rest_le ('u' :: 'l' :: 'l' :: []) cs
                            simp only [List.length_cons]
                            omega
                          · rw [if_neg hb] at h
                            cases h
                        · rw [if_neg h11] at h
                          by_cases h12 : isAsciiDigit c = true
                          · rw [if_pos h12] at h
                            simp only [next_number] at h
                            have hnum : isNumChar c = true := by
                              simp [isNumChar, h12]
                            have hrun : numRun (c :: cs) = (c :: (numRun cs).1, (numRun cs).2) := by
                              simp [numRun, hnum]
                            rw [hrun] at h
                            have hle := numRun_rest_le cs
                            split at h
                            · cases h
                              simp only [List.length_cons]
                              omega
                            · split at h
                              · cases h
                                simp only [List.length_cons]
                                omega
                              · cases h
                          · rw [if_neg h12] at h
                            cases h

theorem tokenizeF_congr :
    ∀ (n : Nat) (cs : List Char) (f g : Nat), cs.length ≤ n →
      cs.length < f → cs.length < g → tokenizeF f cs = tokenizeF g cs := by
  intro n
  induction n with
  | zero =>
    intro cs f g hn hf hg
    have hcs : cs = [] := List.length_eq_zero.mp (Nat.le_zero.mp hn)
    subst hcs
    cases f with
    | zero => omega
    | succ f =>
      cases g with
      | zero => omega
      | succ g => rfl
  | succ n ih =>
    intro cs f g hn hf hg
    cases f with
    | zero => omega
    | succ f =>
      cases g with
      | zero => omega
      | succ g =>
        cases hnt : next_token cs with
        | none => simp only [tokenizeF, hnt]
        | some tr =>
          obtain ⟨t, r⟩ := tr
          have hlt := next_token_shrink cs t r hnt
          simp only [tokenizeF, hnt]
          rw [ih r f g (by omega) (by omega) (by omega)]

theorem tokenize_cons {cs : List Char} {t : Token} {r : List Char}
    (h : next_token cs = some (t, r)) : tokenize cs = t :: tokenize r := by
  have hlt := next_token_shrink cs t r h
  show tokenizeF (cs.length + 1) cs = t :: tokenizeF (r.length + 1) r
  rw [show tokenizeF (cs.length + 1) cs = t :: tokenizeF cs.length r by
    simp only [tokenizeF, h]]
  rw [tokenizeF_congr cs.length r cs.length (r.length + 1) (by omega) (by omega) (by omega)]

theorem tokenize_none {cs : List Char} (h : next_token cs = none) : tokenize cs = [] := by
  simp [tokenize, tokenizeF, h]

theorem tokenize_eq_of_next_token_eq {cs1 cs2 : List Char}
    (h : next_token cs1 = next_token cs2) : tokenize cs1 = tokenize cs2 := by
  cases hnt : next_token cs1 with
  | none => rw [tokenize_none hnt, tokenize_none (h.symm.trans hnt)]
  | some tr =>
    obtain ⟨t, r⟩ := tr
    rw [tokenize_cons hnt, tokenize_cons (h.symm.trans hnt)]

theorem next_token_spaces (cs : List Char) :
    ∀ n, next_token (List.replicate n ' ' ++ cs) = next_token cs := by
  intro n
  induction n with
  | zero => rfl
  | succ n ih =>
    show next_token (' ' :: (List.replicate n ' ' ++ cs)) = next_token cs
    rw [show next_token (' ' :: (List.replicate n ' ' ++ cs)) =
      next_token (List.replicate n ' ' ++ cs) from rfl, ih]

theorem tokenize_ws_chunk (n : Nat) (cs : List Char) :
    tokenize ('\n' :: (List.replicate n ' ' ++ cs)) = tokenize cs := by
  apply tokenize_eq_of_next_token_eq
  rw [show next_token ('\n' :: (List.replicate n ' ' ++ cs)) =
    next_token (List.replicate n ' ' ++ cs) from rfl, next_token_spaces]

theorem tokenize_space (cs : List Char) : tokenize (' ' :: cs) = tokenize cs :=
  tokenize_eq_of_next_token_eq rfl

theorem next_token_digit {c : Char} (cs : List Char) (hc : isAsciiDigit c = true) :
    next_token (c :: cs) = next_number (c :: cs) := by
  have hb : 48 ≤ c.toNat ∧ c.toNat ≤ 57 := by
    have h2 := hc
    simp only [isAsciiDigit, Bool.and_eq_true, decide_eq_true_eq] at h2
    exact h2
  simp only [next_token]
  rw [if_neg (fun e => by subst e; exact absurd hc (by decide))]
  rw [if_neg (fun e => by subst e; exact absurd hc (by decide))]
  rw [if_neg (fun e => by subst e; exact absurd hc (by decide))]
  rw [if_neg (fun e => by subst e; exact absurd hc (by decide))]
  rw [if_neg (fun e => by subst e; exact absurd hc (by decide))]
  rw [if_neg (fun e => by subst e; exact absurd hc (by decide))]
  rw [if_neg (fun e => by subst e; exact absurd hc (by decide))]
  rw [if_neg (show ¬ rustIsWhitespace c = true from fun hws => by
    simp only [rustIsWhitespace, Bool.or_eq_true, Bool.and_eq_true,
      decide_eq_true_eq] at hws
    omega)]
  rw [if_neg (fun e => by subst e; exact absurd hc (by decide))]
  rw [if_neg (fun e => by subst e; exact absurd hc (by decide))]
  rw [if_neg (fun e => by subst e; exact absurd hc (by decide))]
  rw [if_pos hc]

theorem digitChar_facts (m : Nat) (h : m < 10) :
    isAsciiDigit (Char.ofNat (48 + m)) = true ∧ digitVal (Char.ofNat (48 + m)) = m := by
  interval_cases m <;> exact ⟨by decide, by decide⟩

theorem digitsToNat_append_single (l : List Char) (c : Char) :
    digitsToNat (l ++ [c]) = 10 * digitsToNat l + digitVal c := by
  simp [digitsToNat, List.foldl_append]

theorem natDigitsGo_spec :
    ∀ (f n : Nat), n < f →
      natDigitsGo f n ≠ [] ∧ (∀ c ∈ natDigitsGo f n, isAsciiDigit c = true) ∧
        digitsToNat (natDigitsGo f n) = n := by
  intro f
  induction f with
  | zero => intro n h; omega
  | succ f ih =>
    intro n h
    by_cases h10 : n < 10
    · simp only [natDigitsGo, if_pos h10]
      refine ⟨by simp, ?_, ?_⟩
      · intro c hc
        rw [List.mem_singleton] at hc
        subst hc
        exact (digitChar_facts n h10).1
      · simp [digitsToNat, (digitChar_facts n h10).2, digitVal]
        exact (digitChar_facts n h10).2
    · simp only [natDigitsGo, if_neg h10]
      have hdiv : n / 10 < f := by omega
      obtain ⟨hne, hdig, hval⟩ := ih (n / 10) hdiv
      refine ⟨by simp, ?_, ?_⟩
      · intro c hc
        rcases List.mem_append.mp hc with hc | hc
        · exact hdig c hc
        · rw [List.mem_singleton] at hc
          subst hc
          exact (digitChar_facts (n % 10) (by omega)).1
      · rw [digitsToNat_append_single, hval, (digitChar_facts (n % 10) (by omega)).2]
        omega

theorem natDigits_spec (n : Nat) :
    natDigits n ≠ [] ∧ (∀ c ∈ natDigits n, isAsciiDigit c = true) ∧
      digitsToNat (natDigits n) = n :=
  natDigitsGo_spec (n + 1) n (by omega)

theorem parse_i32_natDigits (n : Nat) (h : n ≤ 2147483647) :
    parse_i32 (natDigits n) = some (n : Int) := by
  obtain ⟨hne, hdig, hval⟩ := natDigits_spec n
  cases he : natDigits n with
  | nil => exact absurd he hne
  | cons a l =>
    rw [he] at hdig hval
    show parse_i32 (a :: l) = some (n : Int)
    have hall : (a :: l).all isAsciiDigit = true := List.all_eq_true.mpr hdig
    simp only [parse_i32, hall, if_true, hval, if_pos h]

theorem numRun_digits_lead (ds rest : List Char)
    (hd : ∀ c ∈ ds, isAsciiDigit c = true) (hs : safeFollow rest = true) :
    numRun (ds ++ rest) = (ds, rest) := by
  induction ds with
  | nil =>
    cases rest with
    | nil => rfl
    | cons c cs =>
      have hnc : ¬ isNumChar c = true := by
        simp only [safeFollow, Bool.not_eq_eq_eq_not, Bool.not_true] at hs
        simp [hs]
      simp [numRun, hnc]
  | cons d ds ih =>
    have hnum : isNumChar d = true := by
      simp [isNumChar, hd d (List.mem_cons_self d ds)]
    simp only [List.cons_append, numRun, hnum, if_true, List.append_eq]
    rw [ih (fun c hc => hd c (List.mem_cons_of_mem d hc))]

theorem tokenize_int_run (n : Nat) (rest : List Char)
    (hn : n < 2147483648) (hs : safeFollow rest = true) :
    tokenize (natDigits n ++ rest) = .value (.Int (n : Int)) :: tokenize rest := by
  obtain ⟨hne, hdig, hval⟩ := natDigits_spec n
  cases he : natDigits n with
  | nil => exact absurd he hne
  | cons a l =>
    rw [he] at hdig
    have ha : isAsciiDigit a = true := hdig a (List.mem_cons_self a l)
    apply tokenize_cons
    rw [show (a :: l) ++ rest = a :: (l ++ rest) from rfl]
    rw [next_token_digit (l ++ rest) ha]
    have hrun : numRun ((a :: l) ++ rest) = (a :: l, rest) :=
      numRun_digits_lead (a :: l) rest hdig hs
    simp only [next_number]
    rw [show a :: (l ++ rest) = (a :: l) ++ rest from rfl, hrun]
    rw [← he, parse_i32_natDigits n (by omega)]

theorem next_token_quote (cs : List Char) : next_token ('\"' :: cs) = next_string cs := rfl

theorem tokenize_string_lit (s rest : List Char)
    (h : ∀ c ∈ s, safeStrChar c = true) :
    tokenize ('\"' :: (s ++ '\"' :: rest)) =
      .value (.JsonString (String.mk s)) :: tokenize rest := by
  apply tokenize_cons
  rw [next_token_quote]
  simp only [next_string, scan_string_all_safe s rest h]

theorem tokenize_true_lit (rest : List Char) :
    tokenize ('t' :: 'r' :: 'u' :: 'e' :: rest) = .value (.Bool true) :: tokenize rest :=
  tokenize_cons (show next_token ('t' :: 'r' :: 'u' :: 'e' :: rest) =
    some (.value (.Bool true), rest) from rfl)

theorem tokenize_false_lit (rest : List Char) :
    tokenize ('f' :: 'a' :: 'l' :: 's' :: 'e' :: rest) =
      .value (.Bool false) :: tokenize rest :=
  tokenize_cons (show next_token ('f' :: 'a' :: 'l' :: 's' :: 'e' :: rest) =
    some (.value (.Bool false), rest) from rfl)

theorem tokenize_null_lit (rest : List Char) :
    tokenize ('n' :: 'u' :: 'l' :: 'l' :: rest) = .value .Null :: tokenize rest :=
  tokenize_cons (show next_token ('n' :: 'u' :: 'l' :: 'l' :: rest) =
    some (.value .Null, rest) from rfl)

theorem tokenize_curly_open (rest : List Char) :
    tokenize ('\x7b' :: rest) = .CurlyBracketOpen :: tokenize rest :=
  tokenize_cons rfl

theorem tokenize_curly_close (rest : List Char) :
    tokenize ('\x7d' :: rest) = .CurlyBracketClose :: tokenize rest :=
  tokenize_cons rfl

theorem tokenize_bracket_open (rest : List Char) :
    tokenize ('[' :: rest) = .BracketOpen :: tokenize rest :=
  tokenize_cons rfl

theorem tokenize_bracket_close (rest : List Char) :
    tokenize (']' :: rest) = .BracketClose :: tokenize rest :=
  tokenize_cons rfl

theorem tokenize_comma (rest : List Char) :
    tokenize (',' :: rest) = .Comma :: tokenize rest :=
  tokenize_cons rfl

theorem tokenize_colon (rest : List Char) :
    tokenize (':' :: rest) = .Colon :: tokenize rest :=
  tokenize_cons rfl

theorem String_mk_data (s : String) : String.mk s.data = s := rfl

theorem mtoksD_eq_flatten (d : Nat) (ps : List (String × Value)) :
    (ps.map (fun p =>
      Token.value (.JsonString p.1) :: .Colon :: (renderToksD d p.2 ++ [.Comma]))).flatten
      = mtoksD d ps := by
  induction ps with
  | nil => rfl
  | cons p ps ih =>
    obtain ⟨k, v⟩ := p
    rw [List.map_cons, List.flatten_cons, ih]
    simp only [mtoksD, List.cons_append, List.append_assoc, List.singleton_append,
      List.nil_append]

theorem etoksD_eq_flatten (d : Nat) (vs : List Value) :
    (vs.map (fun e => renderToksD d e ++ [.Comma])).flatten = etoksD d vs := by
  induction vs with
  | nil => rfl
  | cons v vs ih =>
    rw [List.map_cons, List.flatten_cons, ih]
    simp only [etoksD, List.cons_append, List.append_assoc, List.singleton_append,
      List.nil_append]

theorem charEscapeDebug_safe {c : Char} (h : safeKeyChar c = true) :
    charEscapeDebug c = [c] := by
  have hb : (32 ≤ c.toNat ∧ c.toNat ≤ 126) ∧ c.toNat ≠ 34 ∧ c.toNat ≠ 92 := by
    simp only [safeKeyChar, Bool.and_eq_true, decide_eq_true_eq, ne_eq] at h
    exact ⟨⟨h.1.1.1, h.1.1.2⟩, h.1.2, h.2⟩
  simp only [charEscapeDebug]
  rw [if_neg (fun e => hb.2.1 (by subst e; decide))]
  rw [if_neg (fun e => hb.2.2 (by subst e; decide))]
  rw [if_neg (fun e => by subst e; exact absurd hb.1.1 (by decide))]
  rw [if_neg (fun e => by subst e; exact absurd hb.1.1 (by decide))]
  rw [if_neg (fun e => by subst e; exact absurd hb.1.1 (by decide))]
  rw [if_neg (show ¬ c.toNat = 0 by omega)]

theorem flatten_escape_safe (l : List Char) (h : ∀ c ∈ l, safeKeyChar c = true) :
    (l.map charEscapeDebug).flatten = l := by
  induction l with
  | nil => rfl
  | cons c cs ih =>
    simp only [List.map_cons, List.flatten_cons,
      charEscapeDebug_safe (h c (List.mem_cons_self c cs)),
      ih (fun x hx => h x (List.mem_cons_of_mem c hx)), List.singleton_append]

theorem stringDebug_safe (s : String) (h : ∀ c ∈ s.data, safeKeyChar c = true) :
    stringDebug s = '\"' :: (s.data ++ ['\"']) := by
  simp only [stringDebug, flatten_escape_safe s.data h, List.cons_append]

theorem safeKeyChar_safeStrChar {c : Char} (h : safeKeyChar c = true) :
    safeStrChar c = true := by
  simp only [safeKeyChar, Bool.and_eq_true, decide_eq_true_eq, ne_eq] at h
  simp only [safeStrChar, Bool.and_eq_true, decide_eq_true_eq, ne_eq]
  exact ⟨h.1.2, h.2⟩

theorem safeFollow_comma (xs : List Char) : safeFollow (',' :: xs) = true := rfl

theorem safeFollow_newline (xs : List Char) : safeFollow ('\n' :: xs) = true := rfl

theorem tokenize_members (d : Nat)
    (IH : ∀ v, goodD d v = true →
      ∀ ind rest, safeFollow rest = true →
        tokenize (renderAtD d ind v ++ rest) = renderToksD d v ++ tokenize rest) :
    ∀ (ps : List (String × Value)) (ind : Nat) (rest : List Char),
      ps.all (fun p => p.1.data.all safeKeyChar && goodD d p.2) = true →
      tokenize ((ps.map (fun p =>
          '\n' :: (List.replicate (ind + 4) ' ' ++ (stringDebug p.1 ++ ':' :: ' ' ::
            (renderAtD d (ind + 4) p.2 ++ [',']))))).flatten
        ++ ('\n' :: (List.replicate ind ' ' ++ '\x7d' :: rest))) =
      mtoksD d ps ++ .CurlyBracketClose :: tokenize rest := by
  intro ps
  induction ps with
  | nil =>
    intro ind rest _hall
    simp only [List.map_nil, List.flatten_nil, List.nil_append, List.cons_append]
    rw [tokenize_ws_chunk, tokenize_curly_close]
    rfl
  | cons p ps ih =>
    obtain ⟨k, v⟩ := p
    intro ind rest hall
    have h1 : k.data.all safeKeyChar = true ∧ goodD d v = true := by
      have hm := List.all_eq_true.mp hall (k, v) (List.mem_cons_self _ _)
      simpa using hm
    have hkey : ∀ c ∈ k.data, safeKeyChar c = true := List.all_eq_true.mp h1.1
    have hps : ps.all (fun p => p.1.data.all safeKeyChar && goodD d p.2) = true := by
      rw [List.all_eq_true]
      intro q hq
      exact List.all_eq_true.mp hall q (List.mem_cons_of_mem _ hq)
    rw [List.map_cons, List.flatten_cons]
    rw [stringDebug_safe k hkey]
    simp only [List.cons_append, List.append_assoc, List.singleton_append,
      List.nil_append]
    rw [tokenize_ws_chunk]
    rw [tokenize_string_lit k.data _ (fun c hc => safeKeyChar_safeStrChar (hkey c hc))]
    rw [String_mk_data]
    rw [tokenize_colon, tokenize_space]
    rw [IH v h1.2 (ind + 4) _ (safeFollow_comma _)]
    rw [tokenize_comma]
    rw [ih ind rest hps]
    simp only [mtoksD, List.cons_append, List.append_assoc, List.singleton_append,
      List.nil_append]

theorem tokenize_elems (d : Nat)
    (IH : ∀ v, goodD d v = true →
      ∀ ind rest, safeFollow rest = true →
        tokenize (renderAtD d ind v ++ rest) = renderToksD d v ++ tokenize rest) :
    ∀ (vs : List Value) (ind : Nat) (rest : List Char),
      vs.all (goodD d) = true →
      tokenize ((vs.map (fun e =>
          '\n' :: (List.replicate (ind + 4) ' ' ++ (renderAtD d (ind + 4) e ++ [','])))).flatten
        ++ ('\n' :: (List.replicate ind ' ' ++ ']' :: rest))) =
      etoksD d vs ++ .BracketClose :: tokenize rest := by
  intro vs
  induction vs with
  | nil =>
    intro ind rest _hall
    simp only [List.map_nil, List.flatten_nil, List.nil_append, List.cons_append]
    rw [tokenize_ws_chunk, tokenize_bracket_close]
    rfl
  | cons v vs ih =>
    intro ind rest hall
    have h1 : goodD d v = true := by
      have hm := List.all_eq_true.mp hall v (List.mem_cons_self _ _)
      simpa using hm
    have hvs : vs.all (goodD d) = true := by
      rw [List.all_eq_true]
      intro q hq
      exact List.all_eq_true.mp hall q (List.mem_cons_of_mem _ hq)
    rw [List.map_cons, List.flatten_cons]
    simp only [List.cons_append, List.append_assoc, List.singleton_append,
      List.nil_append]
    rw [tokenize_ws_chunk]
    rw [IH v h1 (ind + 4) _ (safeFollow_comma _)]
    rw [tokenize_comma]
    rw [ih ind rest hvs]
    simp only [etoksD, List.cons_append, List.append_assoc, List.singleton_append,
      List.nil_append]

theorem tokenize_renderAtD :
    ∀ (d : Nat) (v : Value), goodD d v = true →
      ∀ (ind : Nat) (rest : List Char), safeFollow rest = true →
        tokenize (renderAtD d ind v ++ rest) = renderToksD d v ++ tokenize rest := by
  intro d
  induction d with
  | zero =>
    intro v hg
    simp [goodD] at hg
  | succ d ih =>
    intro v hg ind rest hs
    cases v with
    | Null =>
      show tokenize ('n' :: 'u' :: 'l' :: 'l' :: rest) = [Token.value .Null] ++ tokenize rest
      rw [tokenize_null_lit]
      rfl
    | Bool b =>
      cases b with
      | false =>
        show tokenize ('f' :: 'a' :: 'l' :: 's' :: 'e' :: rest) =
          [Token.value (.Bool false)] ++ tokenize rest
        rw [tokenize_false_lit]
        rfl
      | true =>
        show tokenize ('t' :: 'r' :: 'u' :: 'e' :: rest) =
          [Token.value (.Bool true)] ++ tokenize rest
        rw [tokenize_true_lit]
        rfl
    | Int i =>
      have hi : 0 ≤ i ∧ i < 2147483648 := by
        simpa [goodD] using hg
      show tokenize (intDisplay i ++ rest) = [Token.value (.Int i)] ++ tokenize rest
      simp only [intDisplay]
      rw [if_neg (by omega : ¬ i < 0)]
      rw [tokenize_int_run i.toNat rest (by omega) hs]
      rw [Int.toNat_of_nonneg hi.1]
      rfl
    | Float q =>
      simp [goodD] at hg
    | JsonString s =>
      have hsafe : ∀ c ∈ s.data, safeStrChar c = true := by
        simp only [goodD] at hg
        exact List.all_eq_true.mp hg
      simp only [renderAtD, renderToksD]
      simp only [List.cons_append, List.append_assoc, List.singleton_append,
        List.nil_append]
      rw [tokenize_string_lit s.data rest hsafe, String_mk_data]
    | Array vs =>
      cases vs with
      | nil =>
        show tokenize ('[' :: ']' :: rest) =
          [Token.BracketOpen, Token.BracketClose] ++ tokenize rest
        rw [tokenize_bracket_open, tokenize_bracket_close]
        rfl
      | cons e es =>
        simp [goodD] at hg
    | Object ps =>
      cases ps with
      | nil =>
        show tokenize ('\x7b' :: '\x7d' :: rest) =
          [Token.CurlyBracketOpen, Token.CurlyBracketClose] ++ tokenize rest
        rw [tokenize_curly_open, tokenize_curly_close]
        rfl
      | cons p ps =>
        have hall : (p :: ps).all
            (fun p => p.1.data.all safeKeyChar && goodD d p.2) = true := by
          simp only [goodD, Bool.and_eq_true] at hg
          exact hg.2
        simp only [renderAtD, renderToksD]
        simp only [List.cons_append, List.append_assoc, List.singleton_append,
          List.nil_append]
        rw [tokenize_curly_open]
        rw [tokenize_members d ih (p :: ps) ind rest hall]
        simp only [mtoksD_eq_flatten, List.cons_append, List.append_assoc,
          List.singleton_append, List.nil_append]

theorem insertKV_append (acc : List (String × Value)) (k : String) (v : Value)
    (h : ∀ q ∈ acc, q.1 ≠ k) : insertKV acc k v = acc ++ [(k, v)] := by
  induction acc with
  | nil => rfl
  | cons q qs ih =>
    obtain ⟨qk, qv⟩ := q
    have hq : qk ≠ k := h (qk, qv) (List.mem_cons_self _ _)
    simp only [insertKV, if_neg hq, List.cons_append]
    rw [ih (fun x hx => h x (List.mem_cons_of_mem _ hx))]

theorem insertAll_append :
    ∀ (ps acc : List (String × Value)),
      (ps.map Prod.fst).Nodup →
      (∀ p ∈ ps, ∀ q ∈ acc, q.1 ≠ p.1) →
      insertAll acc ps = acc ++ ps := by
  intro ps
  induction ps with
  | nil =>
    intro acc _ _
    simp [insertAll]
  | cons p ps ih =>
    intro acc hnd hdisj
    obtain ⟨k, v⟩ := p
    show insertAll (insertKV acc k v) ps = acc ++ (k, v) :: ps
    rw [insertKV_append acc k v
      (fun q hq => hdisj (k, v) (List.mem_cons_self _ _) q hq)]
    have hnd2 : (ps.map Prod.fst).Nodup := by
      simp only [List.map_cons, List.nodup_cons] at hnd
      exact hnd.2
    have hknotin : k ∉ ps.map Prod.fst := by
      simp only [List.map_cons, List.nodup_cons] at hnd
      exact hnd.1
    rw [ih (acc ++ [(k, v)]) hnd2 ?_]
    · simp
    · intro p hp q hq
      rcases List.mem_append.mp hq with hq | hq
      · exact hdisj p (List.mem_cons_of_mem _ hp) q hq
      · rw [List.mem_singleton] at hq
        subst hq
        intro he
        apply hknotin
        rw [show k = p.1 from he]
        exact List.mem_map_of_mem Prod.fst hp

theorem insertAll_nodup (ps : List (String × Value))
    (h : (ps.map Prod.fst).Nodup) : insertAll [] ps = ps := by
  rw [insertAll_append ps [] h (by intro p _ q hq; cases hq)]
  rfl

theorem renderToksD_head (e : Nat) (v : Value) (h : goodD e v = true) :
    ∃ t ts, renderToksD e v = t :: ts ∧ t ≠ Token.BracketClose := by
  cases e with
  | zero => simp [goodD] at h
  | succ e =>
    cases v with
    | Int i => exact ⟨_, _, rfl, fun hc => Token.noConfusion hc⟩
    | Float q => simp [goodD] at h
    | JsonString s => exact ⟨_, _, rfl, fun hc => Token.noConfusion hc⟩
    | Bool b => exact ⟨_, _, rfl, fun hc => Token.noConfusion hc⟩
    | Null => exact ⟨_, _, rfl, fun hc => Token.noConfusion hc⟩
    | Array vs =>
      cases vs with
      | nil => exact ⟨_, _, rfl, fun hc => Token.noConfusion hc⟩
      | cons e1 es => simp [goodD] at h
    | Object ps =>
      cases ps with
      | nil => exact ⟨_, _, rfl, fun hc => Token.noConfusion hc⟩
      | cons p ps => exact ⟨_, _, rfl, fun hc => Token.noConfusion hc⟩

theorem object_loop_members (d : Nat)
    (IH : ∀ v, goodD d v = true → ∀ f tl, 2 * (renderToksD d v).length ≤ f →
      parse_value f (renderToksD d v ++ tl) = (some v, tl)) :
    ∀ (ps : List (String × Value)),
      ps.all (fun p => p.1.data.all safeKeyChar && goodD d p.2) = true →
      ∀ (f : Nat) (map : List (String × Value)) (tl : List Token),
        2 * (mtoksD d ps).length + 1 ≤ f →
        object_loop f (mtoksD d ps ++ .CurlyBracketClose :: tl) map =
          (some (.Object (insertAll map ps)), tl) := by
  intro ps
  induction ps with
  | nil =>
    intro _ f map tl hf
    cases f with
    | zero => omega
    | succ f => rfl
  | cons p ps ih =>
    intro hall f map tl hf
    obtain ⟨k, v⟩ := p
    have h1 : goodD d v = true := by
      have hm := List.all_eq_true.mp hall (k, v) (List.mem_cons_self _ _)
      simp only [Bool.and_eq_true] at hm
      exact hm.2
    have hps : ps.all (fun p => p.1.data.all safeKeyChar && goodD d p.2) = true := by
      rw [List.all_eq_true]
      intro q hq
      exact List.all_eq_true.mp hall q (List.mem_cons_of_mem _ hq)
    have hlen : (mtoksD d ((k, v) :: ps)).length =
        (renderToksD d v).length + (mtoksD d ps).length + 3 := by
      simp only [mtoksD, List.length_cons, List.length_append]
      omega
    cases f with
    | zero => omega
    | succ f =>
      show object_loop (f + 1)
        ((Token.value (.JsonString k) :: .Colon ::
          (renderToksD d v ++ .Comma :: mtoksD d ps)) ++ .CurlyBracketClose :: tl) map =
        (some (.Object (insertAll map ((k, v) :: ps))), tl)
      simp only [List.cons_append, List.append_assoc, List.cons_append]
      simp only [object_loop]
      rw [IH v h1 f _ (by omega)]
      show object_loop f (mtoksD d ps ++ Token.CurlyBracketClose :: tl) (insertKV map k v) =
        (some (Value.Object (insertAll map ((k, v) :: ps))), tl)
      rw [ih hps f (insertKV map k v) tl (by omega)]
      rfl

theorem array_loop_elems (d : Nat)
    (IH : ∀ v, goodD d v = true → ∀ f tl, 2 * (renderToksD d v).length ≤ f →
      parse_value f (renderToksD d v ++ tl) = (some v, tl)) :
    ∀ (vs : List Value), vs.all (goodD d) = true →
      ∀ (f : Nat) (acc : List Value) (tl : List Token),
        2 * (etoksD d vs).length + 1 ≤ f →
        array_loop f (etoksD d vs ++ .BracketClose :: tl) acc =
          (some (.Array (acc ++ vs)), .BracketClose :: tl) := by
  intro vs
  induction vs with
  | nil =>
    intro _ f acc tl hf
    rw [List.append_nil]
    cases f with
    | zero => omega
    | succ f =>
      show array_loop (f + 1) (.BracketClose :: tl) acc = (some (.Array acc), .BracketClose :: tl)
      cases f with
      | zero => rfl
      | succ f => rfl
  | cons v vs ih =>
    intro hall f acc tl hf
    have h1 : goodD d v = true := by
      have hm := List.all_eq_true.mp hall v (List.mem_cons_self _ _)
      simpa using hm
    have hvs : vs.all (goodD d) = true := by
      rw [List.all_eq_true]
      intro q hq
      exact List.all_eq_true.mp hall q (List.mem_cons_of_mem _ hq)
    have hlen : (etoksD d (v :: vs)).length =
        (renderToksD d v).length + (etoksD d vs).length + 1 := by
      simp only [etoksD, List.length_cons, List.length_append]
      omega
    cases f with
    | zero => omega
    | succ f =>
      show array_loop (f + 1)
        ((renderToksD d v ++ .Comma :: etoksD d vs) ++ .BracketClose :: tl) acc =
        (some (.Array (acc ++ v :: vs)), .BracketClose :: tl)
      simp only [List.append_assoc, List.cons_append]
      simp only [array_loop]
      rw [IH v h1 f _ (by omega)]
      show array_loop f (etoksD d vs ++ Token.BracketClose :: tl) (acc ++ [v]) =
        (some (Value.Array (acc ++ v :: vs)), Token.BracketClose :: tl)
      rw [ih hvs f (acc ++ [v]) tl (by omega)]
      simp

theorem parse_value_good :
    ∀ (d : Nat) (v : Value), goodD d v = true →
      ∀ (f : Nat) (tl : List Token), 2 * (renderToksD d v).length ≤ f →
        parse_value f (renderToksD d v ++ tl) = (some v, tl) := by
  intro d
  induction d with
  | zero =>
    intro v hg
    simp [goodD] at hg
  | succ d ih =>
    intro v hg f tl hf
    cases v with
    | Int i =>
      cases f with
      | zero => simp [renderToksD] at hf
      | succ f => rfl
    | Float q => simp [goodD] at hg
    | JsonString s =>
      cases f with
      | zero => simp [renderToksD] at hf
      | succ f => rfl
    | Bool b =>
      cases f with
      | zero => simp [renderToksD] at hf
      | succ f => rfl
    | Null =>
      cases f with
      | zero => simp [renderToksD] at hf
      | succ f => rfl
    | Array vs =>
      cases vs with
      | nil =>
        have hf4 : 4 ≤ f := by
          simp only [renderToksD, List.length_cons, List.length_nil] at hf
          omega
        obtain ⟨f2, rfl⟩ : ∃ k, f = k + 2 := ⟨f - 2, by omega⟩
        rfl
      | cons e es => simp [goodD] at hg
    | Object ps =>
      have hgo := hg
      simp only [goodD, Bool.and_eq_true] at hgo
      cases ps with
      | nil =>
        have hf4 : 4 ≤ f := by
          simp only [renderToksD, List.length_cons, List.length_nil] at hf
          omega
        obtain ⟨f2, rfl⟩ : ∃ k, f = k + 3 := ⟨f - 3, by omega⟩
        rfl
      | cons p ps =>
        have hnd : ((p :: ps).map Prod.fst).Nodup := of_decide_eq_true hgo.1
        have hall : (p :: ps).all
            (fun p => p.1.data.all safeKeyChar && goodD d p.2) = true := hgo.2
        have htoks : ∀ (X : List Token), renderToksD (d + 1) (.Object (p :: ps)) ++ X =
            .CurlyBracketOpen :: (mtoksD d (p :: ps) ++ .CurlyBracketClose :: X) := by
          intro X
          simp only [renderToksD, mtoksD_eq_flatten, List.cons_append, List.append_assoc,
            List.singleton_append, List.nil_append]
        have hlen : (renderToksD (d + 1) (.Object (p :: ps))).length =
            (mtoksD d (p :: ps)).length + 2 := by
          have hcong := congrArg List.length (htoks [])
          simp only [List.append_nil, List.length_cons, List.length_append,
            List.length_nil] at hcong
          omega
        have hfm : 2 * (mtoksD d (p :: ps)).length + 4 ≤ f := by omega
        rw [htoks]
        obtain ⟨f2, rfl⟩ : ∃ k, f = k + 2 := ⟨f - 2, by omega⟩
        show parse_object (f2 + 1)
          (.CurlyBracketOpen :: (mtoksD d (p :: ps) ++ .CurlyBracketClose :: tl)) =
          (some (.Object (p :: ps)), tl)
        show object_loop f2 (mtoksD d (p :: ps) ++ .CurlyBracketClose :: tl) [] =
          (some (.Object (p :: ps)), tl)
        rw [object_loop_members d ih (p :: ps) hall f2 [] tl (by omega)]
        rw [insertAll_nodup _ hnd]

theorem lookupKV_insertKV_self (m : List (String × Value)) (k : String) (v : Value) :
    lookupKV (insertKV m k v) k = some v := by
  induction m with
  | nil => simp [insertKV, lookupKV]
  | cons p ps ih =>
    by_cases h : p.1 = k
    · simp [insertKV, h, lookupKV]
    · simp only [insertKV]
      rw [if_neg h]
      simp only [lookupKV]
      rw [if_neg h]
      exact ih

theorem parse_array_nonempty_head (f : Nat) (t : Token) (ht : t ≠ Token.BracketClose)
    (X : List Token) :
    parse_array (f + 1) (Token.BracketOpen :: t :: X) = array_loop f (t :: X) [] := by
  cases t with
  | BracketClose => exact absurd rfl ht
  | value v => rfl
  | CurlyBracketOpen => rfl
  | CurlyBracketClose => rfl
  | BracketOpen => rfl
  | Comma => rfl
  | Colon => rfl

/-! ## Claim theorems -/

/-- C1 counterexample: the claim says parsing `[1,2,]` produces no value, but
the code parses it to the two-element array `[1, 2]` (the failed element parse
after the trailing comma merely ends `parse_array`'s loop). -/
theorem C1_counterexample :
    parse "[1,2,]" = some (.Array [.Int 1, .Int 2]) ∧ parse "[1,2,]" ≠ none := by
  refine ⟨rfl, ?_⟩
  intro h
  rw [show parse "[1,2,]" = some (.Array [.Int 1, .Int 2]) from rfl] at h
  exact Option.noConfusion h

/-- C1 amended: a comma immediately followed by a closing delimiter does not
make parse fail: `[1,2,]` parses to the array `[1, 2]` (the `]` is left
unconsumed) and an object such as `\x7b"a":1,\x7d` parses to `\x7b"a": 1\x7d` (its `\x7d` is
consumed by the normal closing check). -/
theorem C1_trailing_comma_accepted :
    parse "[1,2,]" = some (.Array [.Int 1, .Int 2]) ∧
    parse "\x7b\"a\":1,\x7d" = some (.Object [("a", .Int 1)]) :=
  ⟨rfl, rfl⟩

/-- C2 counterexample: the claim says any structural error unwinds the whole
parse to `none`, with `\x7b"a":\x7d` as an instance; the code instead returns the
partial tree `\x7b\x7d` for it. -/
theorem C2_counterexample :
    parse "\x7b\"a\":\x7d" = some (.Object []) ∧ parse "\x7b\"a\":\x7d" ≠ none := by
  refine ⟨rfl, ?_⟩
  intro h
  rw [show parse "\x7b\"a\":\x7d" = some (.Object []) from rfl] at h
  exact Option.noConfusion h

/-- C2 amended: not every error unwinds the parse.  A missing colon after a
key or a bad array separator does return `none`, but a failed value parse at
member or element position only ends the enclosing container loop, and the
partial container built so far is returned: `\x7b"a":\x7d` parses to the empty
object and `[,]` to the empty array. -/
theorem C2_partial_trees :
    parse "\x7b\"a\":\x7d" = some (.Object []) ∧
    parse "[,]" = some (.Array []) ∧
    parse "\x7b\"a\" 1\x7d" = none ∧
    parse "[1 2]" = none :=
  ⟨rfl, rfl, rfl, rfl⟩

/-- C4: a backslash makes the string scanner append the very next character
literally, whatever it is (no JSON escape translation), and parsing
`\x7b"k":"a\"b"\x7d` yields the string `a"b` under key `k`. -/
theorem C4_escape_appends_next_char_literally :
    (∀ (c : Char) (cs : List Char),
      scan_string ('\\' :: c :: cs) false =
        (c :: (scan_string cs false).1, (scan_string cs false).2)) ∧
    parse "\x7b\"k\":\"a\\\"b\"\x7d" = some (.Object [("k", .JsonString "a\"b")]) :=
  ⟨fun _ _ => rfl, rfl⟩

/-- C5: the number scanner consumes the maximal run of digits and dots; the
run is parsed as `i32` first (emitting `Int`), then as `f32` (emitting
`Float`), and if both fail no token is produced; a leading `-` is never
consumed — dispatch on `-` hits the unparseable-character arm and produces no
token. -/
theorem C5_number_scanner :
    (∀ cs : List Char,
      (numRun cs).1 ++ (numRun cs).2 = cs ∧
      (∀ c ∈ (numRun cs).1, isNumChar c = true) ∧
      (∀ c cs2, (numRun cs).2 = c :: cs2 → isNumChar c = false)) ∧
    (∀ (cs : List Char) (i : Int), parse_i32 (numRun cs).1 = some i →
      next_number cs = some (.value (.Int i), (numRun cs).2)) ∧
    (∀ (cs : List Char) (q : Rat),
      parse_i32 (numRun cs).1 = none → parse_f32 (numRun cs).1 = some q →
      next_number cs = some (.value (.Float q), (numRun cs).2)) ∧
    (∀ cs : List Char, parse_i32 (numRun cs).1 = none → parse_f32 (numRun cs).1 = none →
      next_number cs = none) ∧
    (∀ cs : List Char, next_token ('-' :: cs) = none) := by
  refine ⟨fun cs => ⟨numRun_append cs, numRun_mem cs, numRun_stop cs⟩, ?_, ?_, ?_, ?_⟩
  · intro cs i h
    simp only [next_number, h]
  · intro cs q h1 h2
    simp only [next_number, h1, h2]
  · intro cs h1 h2
    simp only [next_number, h1, h2]
  · intro cs
    rfl

/-- C6: reaching end of input inside a string literal is not an error: the
scanner always produces a `JsonString` token, and when the input after the
opening quote contains no quote or backslash at all, the token holds exactly
the scanned characters with the whole input consumed. -/
theorem C6_unterminated_string_tolerated :
    (∀ cs : List Char, (next_string cs).isSome = true) ∧
    (∀ cs : List Char, (∀ c ∈ cs, safeStrChar c = true) →
      next_token ('\"' :: cs) = some (.value (.JsonString (String.mk cs)), [])) := by
  constructor
  · intro cs
    rfl
  · intro cs h
    show next_string cs = _
    simp only [next_string, scan_string_eof cs h]

/-- C7: duplicate object keys are resolved last-write-wins: `\x7b"a":1,"a":2\x7d`
parses to an object mapping `a` to `2`, and in general inserting a key that is
already present overwrites, so the later value is the one found. -/
theorem C7_duplicate_keys_last_write_wins :
    parse "\x7b\"a\":1,\"a\":2\x7d" = some (.Object [("a", .Int 2)]) ∧
    ∀ (m : List (String × Value)) (k : String) (v : Value),
      lookupKV (insertKV m k v) k = some v :=
  ⟨rfl, lookupKV_insertKV_self⟩

/-- C8: the soft accessors return the child exactly when the receiver has the
right variant and the key exists / the index is in bounds, never fail, and
lift to optional receivers so a chain applied to an empty optional
short-circuits to the empty optional. -/
theorem C8_soft_lookup_contract :
    (∀ (v : Value) (k : String) (c : Value),
      v.get_map k = some c ↔ ∃ m, v = .Object m ∧ lookupKV m k = some c) ∧
    (∀ (v : Value) (i : Nat) (c : Value),
      v.get_arr i = some c ↔ ∃ l, v = .Array l ∧ i < l.length ∧ l.get? i = some c) ∧
    (∀ k, OptionValueExt.get_map none k = none) ∧
    (∀ i, OptionValueExt.get_arr none i = none) ∧
    (∀ (v : Value) (k : String), OptionValueExt.get_map (some v) k = v.get_map k) ∧
    (∀ (v : Value) (i : Nat), OptionValueExt.get_arr (some v) i = v.get_arr i) := by
  refine ⟨?_, ?_, fun _ => rfl, fun _ => rfl, fun _ _ => rfl, fun _ _ => rfl⟩
  · intro v k c
    cases v <;> simp [Value.get_map]
  · intro v i c
    cases v with
    | Array l =>
      simp only [Value.get_arr, Value.Array.injEq]
      constructor
      · intro h
        exact ⟨l, rfl, List.get?_eq_some.mp h |>.1, h⟩
      · rintro ⟨l2, rfl, _, h⟩
        exact h
    | Int i => simp [Value.get_arr]
    | Float q => simp [Value.get_arr]
    | JsonString s => simp [Value.get_arr]
    | Object m => simp [Value.get_arr]
    | Bool b => simp [Value.get_arr]
    | Null => simp [Value.get_arr]

/-- C9: hard indexing a non-`Object` by string key panics, hard indexing a
non-`Array` by position panics, and on the same mismatch the soft accessor
returns the empty optional instead. -/
theorem C9_hard_index_panics_on_mismatch :
    (∀ (v : Value) (k : String), (∀ m, v ≠ .Object m) →
      indexStr v k = .panics ∧ v.get_map k = none) ∧
    (∀ (v : Value) (i : Nat), (∀ l, v ≠ .Array l) →
      indexNum v i = .panics ∧ v.get_arr i = none) := by
  constructor
  · intro v k h
    cases v with
    | Object m => exact absurd rfl (h m)
    | Int i => exact ⟨rfl, rfl⟩
    | Float q => exact ⟨rfl, rfl⟩
    | JsonString s => exact ⟨rfl, rfl⟩
    | Array l => exact ⟨rfl, rfl⟩
    | Bool b => exact ⟨rfl, rfl⟩
    | Null => exact ⟨rfl, rfl⟩
  · intro v i h
    cases v with
    | Array l => exact absurd rfl (h l)
    | Int j => exact ⟨rfl, rfl⟩
    | Float q => exact ⟨rfl, rfl⟩
    | JsonString s => exact ⟨rfl, rfl⟩
    | Object m => exact ⟨rfl, rfl⟩
    | Bool b => exact ⟨rfl, rfl⟩
    | Null => exact ⟨rfl, rfl⟩

/-- C10: parse never checks that the whole input was consumed: it is a single
`parse_value` whose unconsumed rest is dropped, so `42 junk` parses to `42`
and `[] ]` parses to the empty array. -/
theorem C10_no_end_of_input_check :
    parse "42 junk" = some (.Int 42) ∧
    parse "[] ]" = some (.Array []) ∧
    ∀ (s : String) (v : Value) (rest : List Token),
      parse_value (parseFuel (tokenize s.data)) (tokenize s.data) = (some v, rest) →
      parse s = some v := by
  refine ⟨rfl, rfl, ?_⟩
  intro s v rest h
  show (parse_value (parseFuel (tokenize s.data)) (tokenize s.data)).1 = some v
  rw [h]

/-- C3 counterexample: `[[1],[2]]` parses successfully, but rendering the
resulting value (shown verbatim: the pretty `Debug` form with a trailing comma
after every element) and reparsing yields `[[1]]`, not the original value —
the reparse consumes the inner array's stranded `]` as the outer array's
closing delimiter and stops after the first element. -/
theorem C3_counterexample :
    parse "[[1],[2]]" = some (.Array [.Array [.Int 1], .Array [.Int 2]]) ∧
    String.mk (renderAtD 10 0 (.Array [.Array [.Int 1], .Array [.Int 2]])) =
      "[\n    [\n        1,\n    ],\n    [\n        2,\n    ],\n]" ∧
    parse (String.mk (renderAtD 10 0 (.Array [.Array [.Int 1], .Array [.Int 2]]))) =
      some (.Array [.Array [.Int 1]]) ∧
    Value.Array [.Array [.Int 1]] ≠ Value.Array [.Array [.Int 1], .Array [.Int 2]] := by
  refine ⟨rfl, rfl, rfl, ?_⟩
  intro h
  have := congrArg (fun v => match v with | Value.Array l => l.length | _ => 0) h
  simp at this

/-- C3 amended: the render-reparse round trip holds for every parsed value in
the `goodRootD` class: all `Int`s in `[0, 2^31)`, no `Float`, string values
without `"` or `\`, object keys printable ASCII without `"` or `\` and
duplicate-free, and every `Array` node empty — unless the root itself is a
nonempty `Array` of such values.  `goodRootD d v` also certifies that the
render fuel `d` exceeds the value's depth, so `renderAtD d 0 v` is the
`Display` output. -/
theorem C3_roundtrip_for_good_values (d : Nat) (v : Value) (s : String)
    (_hp : parse s = some v) (hg : goodRootD d v = true) :
    parse (String.mk (renderAtD d 0 v)) = some v := by
  simp only [goodRootD, Bool.or_eq_true] at hg
  show (parse_value (parseFuel (tokenize (renderAtD d 0 v)))
    (tokenize (renderAtD d 0 v))).1 = some v
  cases hg with
  | inl hgood =>
    have htok : tokenize (renderAtD d 0 v) = renderToksD d v := by
      have ht := tokenize_renderAtD d v hgood 0 [] rfl
      rw [List.append_nil] at ht
      rw [ht, show tokenize ([] : List Char) = [] from rfl, List.append_nil]
    rw [htok]
    have hp2 := parse_value_good d v hgood (parseFuel (renderToksD d v)) []
      (by simp only [parseFuel]; omega)
    rw [List.append_nil] at hp2
    rw [hp2]
  | inr harr =>
    cases d with
    | zero => simp at harr
    | succ e =>
      cases v with
      | Int i => simp at harr
      | Float q => simp at harr
      | JsonString s2 => simp at harr
      | Bool b => simp at harr
      | Null => simp at harr
      | Object ps => simp at harr
      | Array vs =>
        cases vs with
        | nil => simp at harr
        | cons v1 vs =>
          have hall : (v1 :: vs).all (goodD e) = true := by
            simp only [Bool.and_eq_true] at harr
            exact harr.2
          have htok : tokenize (renderAtD (e + 1) 0 (.Array (v1 :: vs))) =
              .BracketOpen :: (etoksD e (v1 :: vs) ++ [.BracketClose]) := by
            have hx : renderAtD (e + 1) 0 (.Array (v1 :: vs)) =
                '[' :: (((v1 :: vs).map (fun x =>
                  '\n' :: (List.replicate (0 + 4) ' ' ++ (renderAtD e (0 + 4) x ++ [','])))).flatten
                  ++ ('\n' :: (List.replicate 0 ' ' ++ ']' :: []))) := by
              simp only [renderAtD]
              simp only [List.cons_append, List.append_assoc, List.singleton_append,
                List.nil_append]
            rw [hx, tokenize_bracket_open]
            rw [tokenize_elems e (tokenize_renderAtD e) (v1 :: vs) 0 [] hall]
            rw [show tokenize ([] : List Char) = [] from rfl]
          rw [htok]
          have hg1 : goodD e v1 = true := by
            have hm := List.all_eq_true.mp hall v1 (List.mem_cons_self _ _)
            simpa using hm
          obtain ⟨t, ts, hts, htne⟩ := renderToksD_head e v1 hg1
          have hsplit : etoksD e (v1 :: vs) ++ [Token.BracketClose] =
              t :: (ts ++ Token.Comma :: (etoksD e vs ++ [Token.BracketClose])) := by
            rw [show etoksD e (v1 :: vs) =
              renderToksD e v1 ++ Token.Comma :: etoksD e vs from rfl, hts]
            simp [List.cons_append, List.append_assoc]
          rw [hsplit]
          obtain ⟨F, hF⟩ : ∃ k, parseFuel (Token.BracketOpen ::
              t :: (ts ++ Token.Comma :: (etoksD e vs ++ [Token.BracketClose]))) = k + 2 :=
            ⟨parseFuel (Token.BracketOpen ::
              t :: (ts ++ Token.Comma :: (etoksD e vs ++ [Token.BracketClose]))) - 2,
              by simp only [parseFuel]; omega⟩
          rw [hF]
          show (parse_array (F + 1) (Token.BracketOpen ::
            t :: (ts ++ Token.Comma :: (etoksD e vs ++ [Token.BracketClose])))).1 =
            some (.Array (v1 :: vs))
          rw [parse_array_nonempty_head F t htne _]
          rw [← hsplit]
          have hle : 2 * (etoksD e (v1 :: vs)).length + 1 ≤ F := by
            have h1 := congrArg List.length hsplit
            simp only [List.length_append, List.length_cons, List.length_nil] at h1
            simp only [parseFuel, List.length_cons, List.length_append,
              List.length_nil] at hF
            omega
          rw [array_loop_elems e (parse_value_good e) (v1 :: vs) hall F [] [] hle]
          simp

/-- C3 witness: a concrete parsed object round-trips through the rendering. -/
theorem C3_roundtrip_witness :
    parse (String.mk (renderAtD 5 0 (.Object [("a", .Int 1)]))) =
      some (.Object [("a", .Int 1)]) :=
  C3_roundtrip_for_good_values 5 (.Object [("a", .Int 1)]) "\x7b\"a\":1\x7d" rfl (by decide)
